import Mathlib

/-!
Verification of the structured-output extraction pipeline: a JSON-like
structured parser over schema descriptors, a fixing (repair) parser and a
retry-with-context parser, plus a permissive comma-separated-list parser.
The repository's notebook exercises these components; the components
themselves are modelled here, faithful to the specification, and the
observable behaviour shown in the notebook (error messages, repair runs)
anchors the concrete test values.
-/

set_option maxHeartbeats 1000000
set_option maxRecDepth 10000

/-- Opening brace character. -/
def lbrace : Char := Char.ofNat 123

/-- Closing brace character. -/
def rbrace : Char := Char.ofNat 125

/-- Double-quote character. -/
def dquote : Char := '\"'

/-- Backslash character. -/
def bslash : Char := '\\'

/-- Opening bracket character. -/
def lbrack : Char := '['

/-- Closing bracket character. -/
def rbrack : Char := ']'

/-- Colon character. -/
def colonCh : Char := ':'

/-- Comma character. -/
def commaCh : Char := ','

/-- Minus character. -/
def minusCh : Char := '-'

/-- Whitespace test for the decoder: space, newline, tab, carriage return. -/
def isWsCh (c : Char) : Bool :=
  c = ' ' || c = '\n' || c = '\t' || c = '\r'

/-- Drop leading whitespace. -/
def skipWs (cs : List Char) : List Char := cs.dropWhile isWsCh

mutual

/-- JSON-like values decoded from completions, mutual with the shapes of
arrays and of record fields. -/
inductive JsonValue where
  | str : String → JsonValue
  | num : Int → JsonValue
  | bool : Bool → JsonValue
  | null : JsonValue
  | arr : JsonList → JsonValue
  | obj : JsonFields → JsonValue

/-- Sequences of JSON-like values (array contents). -/
inductive JsonList where
  | nil : JsonList
  | cons : JsonValue → JsonList → JsonList

/-- Ordered association of field names to JSON-like values (record contents). -/
inductive JsonFields where
  | nil : JsonFields
  | cons : String → JsonValue → JsonFields → JsonFields

end

/-- First value bound to a key, scanning fields left to right. -/
def JsonFields.lookup : JsonFields → String → Option JsonValue
  | .nil, _ => none
  | .cons k v tl, key => if k = key then some v else tl.lookup key

/-- Escape one character for a JSON string literal: quote and backslash get
a backslash ahead of them, everything else stands for itself. -/
def escChar (c : Char) : List Char :=
  if c = dquote ∨ c = bslash then [bslash, c] else [c]

/-- Escape a character list for a JSON string literal. -/
def escList (l : List Char) : List Char :=
  List.foldr (fun c acc => escChar c ++ acc) [] l

/-- Render a string as a JSON string literal, quotes included. -/
def encStr (s : String) : List Char := dquote :: (escList s.data ++ [dquote])

/-- Decimal digit character for a digit value below ten. -/
def digCh : Nat → Char
  | 0 => '0'
  | 1 => '1'
  | 2 => '2'
  | 3 => '3'
  | 4 => '4'
  | 5 => '5'
  | 6 => '6'
  | 7 => '7'
  | 8 => '8'
  | _ => '9'

/-- Numeric value of a decimal digit character. -/
def digVal (c : Char) : Nat := c.toNat - 48

/-- Decimal digit characters of a natural number, most significant first. -/
def natChars (n : Nat) : List Char :=
  if n < 10 then [digCh n] else natChars (n / 10) ++ [digCh (n % 10)]
termination_by n
decreasing_by exact Nat.div_lt_self (by omega) (by omega)

/-- Render an integer in decimal, with a leading minus when negative. -/
def encInt (n : Int) : List Char :=
  if n < 0 then minusCh :: natChars n.natAbs else natChars n.toNat

/-- Keyword characters of the literal true. -/
def trueChars : List Char := ['t', 'r', 'u', 'e']

/-- Keyword characters of the literal false. -/
def falseChars : List Char := ['f', 'a', 'l', 's', 'e']

/-- Keyword characters of the literal null. -/
def nullChars : List Char := ['n', 'u', 'l', 'l']

mutual

/-- Canonical rendering of a JSON-like value as characters (no added
whitespace). Rendering a record produces a brace-delimited span, which is
what the extraction heuristic of the structured parser locates. -/
def encVal : JsonValue → List Char
  | .str s => encStr s
  | .num n => encInt n
  | .bool true => trueChars
  | .bool false => falseChars
  | .null => nullChars
  | .arr xs => lbrack :: (encList xs ++ [rbrack])
  | .obj fs => lbrace :: (encFields fs ++ [rbrace])

/-- Comma-separated rendering of array elements. -/
def encList : JsonList → List Char
  | .nil => []
  | .cons v .nil => encVal v
  | .cons v (.cons w tl) => encVal v ++ commaCh :: encList (.cons w tl)

/-- Comma-separated rendering of record fields as key-colon-value. -/
def encFields : JsonFields → List Char
  | .nil => []
  | .cons k v .nil => encStr k ++ colonCh :: encVal v
  | .cons k v (.cons k2 w tl) =>
      encStr k ++ colonCh :: (encVal v ++ commaCh :: encFields (.cons k2 w tl))

end

/-- Render a JSON-like value as a string. -/
def render (v : JsonValue) : String := String.mk (encVal v)

/-- Unescape the character following a backslash in a JSON string literal. -/
def unescCh (c : Char) : Option Char :=
  if c = dquote then some dquote
  else if c = bslash then some bslash
  else if c = 'n' then some '\n'
  else if c = 't' then some '\t'
  else if c = 'r' then some '\r'
  else if c = '/' then some '/'
  else none

/-- Decode the body of a JSON string literal (the opening quote already
consumed), accumulating decoded characters in reverse. -/
def strBody : List Char → List Char → Option (String × List Char)
  | [], _ => none
  | c :: rest, acc =>
    if c = dquote then some (String.mk acc.reverse, rest)
    else if c = bslash then
      match rest with
      | [] => none
      | e :: rest2 =>
        match unescCh e with
        | some u => strBody rest2 (u :: acc)
        | none => none
    else strBody rest (c :: acc)

/-- Numeric value of a maximal run of decimal digit characters. -/
def decDigits (ds : List Char) : Nat :=
  List.foldl (fun a c => a * 10 + digVal c) 0 ds

/-- Decode a decimal integer: optional minus, then a nonempty digit run. -/
def parseNum (cs : List Char) : Option (JsonValue × List Char) :=
  match cs with
  | [] => none
  | c :: rest =>
    if c = minusCh then
      match rest.span (fun ch => ch.isDigit) with
      | ([], _) => none
      | (ds, r) => some (.num (-(Int.ofNat (decDigits ds))), r)
    else
      match (c :: rest).span (fun ch => ch.isDigit) with
      | ([], _) => none
      | (ds, r) => some (.num (Int.ofNat (decDigits ds)), r)

/-- Consume an expected literal character sequence. -/
def stripChars : List Char → List Char → Option (List Char)
  | [], cs => some cs
  | _ :: _, [] => none
  | p :: ps, c :: cs => if c = p then stripChars ps cs else none

mutual

/-- Fuel-bounded decoder for a JSON-like value. Strict about syntax: only
double-quoted strings, colon-separated fields, comma-separated elements. -/
def parseVal : Nat → List Char → Option (JsonValue × List Char)
  | 0, _ => none
  | Nat.succ f, cs =>
    match skipWs cs with
    | [] => none
    | c :: rest =>
      if c = dquote then
        match strBody rest [] with
        | some (s, r) => some (.str s, r)
        | none => none
      else if c = lbrace then
        match skipWs rest with
        | c2 :: r2 =>
          if c2 = rbrace then some (.obj .nil, r2)
          else
            match parseFieldsF f (c2 :: r2) with
            | some (fs, r) => some (.obj fs, r)
            | none => none
        | [] => none
      else if c = lbrack then
        match skipWs rest with
        | c2 :: r2 =>
          if c2 = rbrack then some (.arr .nil, r2)
          else
            match parseElemsF f (c2 :: r2) with
            | some (xs, r) => some (.arr xs, r)
            | none => none
        | [] => none
      else if c = 't' then
        match stripChars ['r', 'u', 'e'] rest with
        | some r => some (.bool true, r)
        | none => none
      else if c = 'f' then
        match stripChars ['a', 'l', 's', 'e'] rest with
        | some r => some (.bool false, r)
        | none => none
      else if c = 'n' then
        match stripChars ['u', 'l', 'l'] rest with
        | some r => some (.null, r)
        | none => none
      else if c = minusCh || c.isDigit then parseNum (c :: rest)
      else none

/-- Fuel-bounded decoder for one or more record fields, entered at the
opening quote of the first key; stops at the closing brace. -/
def parseFieldsF : Nat → List Char → Option (JsonFields × List Char)
  | 0, _ => none
  | Nat.succ f, cs =>
    match cs with
    | [] => none
    | c :: rest =>
      if c = dquote then
        match strBody rest [] with
        | some (k, r1) =>
          match skipWs r1 with
          | c2 :: r2 =>
            if c2 = colonCh then
              match parseVal f r2 with
              | some (v, r3) =>
                match skipWs r3 with
                | c3 :: r4 =>
                  if c3 = commaCh then
                    match parseFieldsF f (skipWs r4) with
                    | some (tl, r5) => some (.cons k v tl, r5)
                    | none => none
                  else if c3 = rbrace then some (.cons k v .nil, r4)
                  else none
                | [] => none
              | none => none
            else none
          | [] => none
        | none => none
      else none

/-- Fuel-bounded decoder for one or more array elements; stops at the
closing bracket. -/
def parseElemsF : Nat → List Char → Option (JsonList × List Char)
  | 0, _ => none
  | Nat.succ f, cs =>
    match parseVal f cs with
    | some (v, r1) =>
      match skipWs r1 with
      | c :: r2 =>
        if c = commaCh then
          match parseElemsF f (skipWs r2) with
          | some (tl, r3) => some (.cons v tl, r3)
          | none => none
        else if c = rbrack then some (.cons v .nil, r2)
        else none
      | [] => none
    | none => none

end

/-- Decode an entire string as one JSON-like value; trailing content other
than whitespace is an error, as is any syntax the strict grammar rejects. -/
def decodeJson (s : String) : Except String JsonValue :=
  match parseVal (s.data.length + 1) s.data with
  | some (v, rest) =>
    if skipWs rest = [] then Except.ok v
    else Except.error ("Extra data")
  | none => Except.error ("Expecting value")

/-- State of the balanced-span scanner: brace depth, whether the scan is
inside a string literal, and whether the previous character was an
unconsumed escape backslash. -/
structure ScanState where
  depth : Nat
  inStr : Bool
  esc : Bool

/-- Modelled from the spec: one step of the extraction scan. Braces count
only outside string literals; a quote toggles string context; a backslash
inside a string escapes the next character. -/
def scanStep (st : ScanState) (c : Char) : ScanState :=
  if st.inStr then
    if st.esc then ⟨st.depth, true, false⟩
    else if c = bslash then ⟨st.depth, true, true⟩
    else if c = dquote then ⟨st.depth, false, false⟩
    else ⟨st.depth, true, false⟩
  else if c = dquote then ⟨st.depth, true, false⟩
  else if c = lbrace then ⟨st.depth + 1, false, false⟩
  else if c = rbrace then ⟨st.depth - 1, false, false⟩
  else ⟨st.depth, false, false⟩

/-- Modelled from the spec: consume characters until the brace depth
returns to zero, yielding the consumed span; none when the input ends with
the span still open. -/
def scanBal : List Char → ScanState → Option (List Char)
  | [], _ => none
  | c :: cs, st =>
    let st2 := scanStep st c
    if st2.depth = 0 then some [c]
    else Option.map (fun l => c :: l) (scanBal cs st2)

/-- Modelled from the spec: the extraction step of the structured parser,
which the repository imports rather than defines. Scan the raw text for the
first top-level balanced-brace span, ignoring braces inside string
literals; on multiple candidate spans the first (leftmost, outermost) wins. -/
def extractSpanChars : List Char → Option (List Char)
  | [] => none
  | c :: cs =>
    if c = lbrace then scanBal (c :: cs) ⟨0, false, false⟩
    else extractSpanChars cs

/-- String-level wrapper for the extraction scan. -/
def extractSpan (s : String) : Option String :=
  Option.map String.mk (extractSpanChars s.data)

/-- Modelled from the spec: semantic types a schema descriptor assigns to
fields (string, number, boolean, list of a type, nested record shape). -/
inductive SemType where
  | string : SemType
  | number : SemType
  | boolean : SemType
  | listOf : SemType → SemType
  | nested : List (String × SemType) → SemType

/-- Presence part of the nested-shape check: every declared key is bound in
the record. -/
def keysPresent (sp : List (String × SemType)) (fs : JsonFields) : Bool :=
  sp.all (fun e => (fs.lookup e.fst).isSome)

mutual

/-- Modelled from the spec: runtime shape check of a decoded value against
a semantic type, recursing into list element types and nested shapes. -/
def typecheck : SemType → JsonValue → Bool
  | .string, .str _ => true
  | .number, .num _ => true
  | .boolean, .bool _ => true
  | .listOf t, .arr xs => typeList t xs
  | .nested sp, .obj fs => typeFields sp fs && keysPresent sp fs
  | _, _ => false

/-- Shape check of every element of an array against one element type. -/
def typeList : SemType → JsonList → Bool
  | _, .nil => true
  | t, .cons v tl => typecheck t v && typeList t tl

/-- Shape check of the bound fields of a nested record: every bound value
whose key is declared matches its declared type. -/
def typeFields : List (String × SemType) → JsonFields → Bool
  | _, .nil => true
  | sp, .cons k v tl =>
    (match sp.find? (fun e => e.fst == k) with
     | some e => typecheck e.snd v
     | none => true) && typeFields sp tl

end

/-- Modelled from the spec: one declared field of a schema descriptor -
name, semantic type, human-readable description, whether it is required,
and a caller-supplied validation predicate returning a failure message or
nothing. -/
structure FieldSpec where
  name : String
  ty : SemType
  descr : String
  required : Bool
  pred : JsonValue → Option String

/-- Modelled from the spec: a schema descriptor - a named, ordered list of
fields, constructed once by the caller and read-only afterwards. -/
structure Descriptor where
  name : String
  fields : List FieldSpec

/-- Modelled from the spec: field-by-field validation in declaration order,
returning the first failing field with its message: a missing required
field, a shape mismatch, or a predicate failure. -/
def validateFields : List FieldSpec → JsonFields → Option (String × String)
  | [], _ => none
  | f :: rest, fs =>
    match fs.lookup f.name with
    | none =>
      if f.required then some (f.name, "field required")
      else validateFields rest fs
    | some v =>
      if typecheck f.ty v then
        match f.pred v with
        | some m => some (f.name, m)
        | none => validateFields rest fs
      else some (f.name, "wrong type")

/-- Modelled from the spec: validate a decoded value against a descriptor.
A non-record value is rejected at the root; otherwise the first field-level
failure in declaration order is reported, and success returns the value
unchanged. -/
def validate (d : Descriptor) (v : JsonValue) : Except (String × String) JsonValue :=
  match v with
  | .obj fs =>
    match validateFields d.fields fs with
    | some e => Except.error e
    | none => Except.ok v
  | _ => Except.error ("__root__", "value is not a valid dict")

/-- Stage of a parse failure: no span extracted, span fails to decode, or
decoded value fails schema validation (carrying the offending field). -/
inductive FailKind where
  | extraction : FailKind
  | decode : String → FailKind
  | validation : String → String → FailKind
deriving DecidableEq

/-- Underlying-cause text of a failure stage. -/
def FailKind.describe : FailKind → String
  | .extraction => "No structured span found in completion"
  | .decode m => m
  | .validation fl m => "1 validation error\n" ++ fl ++ "\n  " ++ m

/-- A parse failure: the schema name, the original raw completion text, and
the failing stage. -/
structure ParseFailure where
  schemaName : String
  rawText : String
  kind : FailKind
deriving DecidableEq

/-- Human-readable message of a failure, composing the schema name, the
complete original completion text and the underlying cause, in the format
the notebook's tracebacks display. -/
def ParseFailure.message (f : ParseFailure) : String :=
  "Failed to parse " ++ f.schemaName ++ " from completion " ++ f.rawText
    ++ ". Got: " ++ f.kind.describe

/-- The JSON-like structured parser over a schema descriptor
(the notebook's PydanticOutputParser, whose implementation the repository
imports; modelled from the spec). -/
structure PydanticOutputParser where
  descriptor : Descriptor

/-- Decode an extracted span and validate the result, classifying each
failure by stage. -/
def decodeAndValidate (d : Descriptor) (text spanStr : String) :
    Except ParseFailure JsonValue :=
  match decodeJson spanStr with
  | Except.error m => Except.error ⟨d.name, text, FailKind.decode m⟩
  | Except.ok v =>
    match validate d v with
    | Except.error e => Except.error ⟨d.name, text, FailKind.validation e.fst e.snd⟩
    | Except.ok v2 => Except.ok v2

/-- Modelled from the spec: parse raw completion text - extract the first
balanced-brace span, decode it, validate against the descriptor; each
failure stage is categorized and carries the original text. -/
def PydanticOutputParser.parse (p : PydanticOutputParser) (text : String) :
    Except ParseFailure JsonValue :=
  match extractSpan text with
  | none => Except.error ⟨p.descriptor.name, text, FailKind.extraction⟩
  | some s => decodeAndValidate p.descriptor text s

/-- Name of a semantic type for rendered format instructions. -/
def semTypeText : SemType → String
  | .string => "string"
  | .number => "number"
  | .boolean => "boolean"
  | .listOf t => "list of " ++ semTypeText t
  | .nested _ => "object"

/-- Modelled from the spec: deterministic, descriptor-order instruction
text listing each field's name, type and description. -/
def renderInstructions (d : Descriptor) : String :=
  "The output should be a JSON object with the following fields:\n"
    ++ String.join (d.fields.map (fun f =>
        f.name ++ " (" ++ semTypeText f.ty ++ "): " ++ f.descr ++ "\n"))

/-- Modelled from the spec: the external text-completion collaborator - a
callable from prompt text to completion text that can instead fail with a
service error, which the parsing layer propagates unretried. -/
structure CompletionService where
  complete : String → Except String String

/-- Terminal failure of a repair-wrapping parser: the retry budget was
exhausted (carrying the last parse failure), or the completion service
itself failed (propagated unmodified). -/
inductive FixError where
  | budgetExhausted : ParseFailure → FixError
  | serviceFailed : String → FixError

/-- Modelled from the spec: the repair prompt of the fixing strategy -
format instructions, the bad output, and the repair directive. It has no
access to the original request context. -/
def mkFixPrompt (d : Descriptor) (bad : ParseFailure) : String :=
  "Instructions:\n" ++ renderInstructions d
    ++ "Completion:\n" ++ bad.rawText
    ++ "\nAbove, the Completion does not satisfy the Instructions. Error: "
    ++ bad.kind.describe
    ++ "\nPlease produce a corrected completion that satisfies the Instructions:"

/-- The fixing parser: wraps a structured parser and a completion service,
with a configurable retry budget (the notebook's OutputFixingParser, whose
implementation the repository imports; modelled from the spec). -/
structure OutputFixingParser where
  parser : PydanticOutputParser
  llm : CompletionService
  maxAttempts : Nat

/-- Constructor used by the notebook: wrap a parser and a completion
service with the default retry budget of one attempt. -/
def OutputFixingParser.from_llm (p : PydanticOutputParser) (llm : CompletionService) :
    OutputFixingParser :=
  ⟨p, llm, 1⟩

/-- Modelled from the spec: the repair loop after an initial failure. Each
attempt composes a fix prompt, invokes the service, and re-parses; a
service failure propagates at once; on exhaustion the last parse failure is
wrapped. Returns the outcome together with the list of prompts sent to the
service, in order. -/
def fixingRepair (p : PydanticOutputParser) (svc : CompletionService) :
    Nat → ParseFailure → Except FixError JsonValue × List String
  | 0, lastF => (Except.error (FixError.budgetExhausted lastF), [])
  | Nat.succ k, lastF =>
    let pr := mkFixPrompt p.descriptor lastF
    match svc.complete pr with
    | Except.error e => (Except.error (FixError.serviceFailed e), [pr])
    | Except.ok t2 =>
      match p.parse t2 with
      | Except.ok v => (Except.ok v, [pr])
      | Except.error f2 =>
        let r := fixingRepair p svc k f2
        (r.fst, pr :: r.snd)

/-- Modelled from the spec: fixing parse with an instrumented run - parse
the raw text, return immediately on success (zero service calls), and
otherwise enter the bounded repair loop. The second component lists every
prompt sent to the completion service. -/
def OutputFixingParser.parseRun (fx : OutputFixingParser) (text : String) :
    Except FixError JsonValue × List String :=
  match fx.parser.parse text with
  | Except.ok v => (Except.ok v, [])
  | Except.error f => fixingRepair fx.parser fx.llm fx.maxAttempts f

/-- Fixing parse, result only. -/
def OutputFixingParser.parse (fx : OutputFixingParser) (text : String) :
    Except FixError JsonValue :=
  (fx.parseRun text).fst

/-- The retry-with-context parser: wraps a structured parser and a
completion service (the notebook's RetryWithErrorOutputParser, whose
implementation the repository imports; modelled from the spec). -/
structure RetryWithErrorOutputParser where
  parser : PydanticOutputParser
  llm : CompletionService
  maxAttempts : Nat

/-- Constructor used by the notebook: default retry budget of one. -/
def RetryWithErrorOutputParser.from_llm (p : PydanticOutputParser)
    (llm : CompletionService) : RetryWithErrorOutputParser :=
  ⟨p, llm, 1⟩

/-- Modelled from the spec: the repair prompt of the retry-with-context
strategy - the original prompt text verbatim, the bad completion, the
failure detail, and a directive to answer the original request afresh. -/
def mkRetryPrompt (originalPrompt badText errText : String) : String :=
  "Prompt:\n" ++ originalPrompt
    ++ "\nCompletion:\n" ++ badText
    ++ "\nAbove, the Completion did not satisfy the constraints given in the Prompt. Details: "
    ++ errText
    ++ "\nPlease try again, answering the Prompt completely:"

/-- Modelled from the spec: the bounded retry loop with original-prompt
context; each attempt regenerates from the original prompt plus the latest
bad completion. Returns the outcome and the prompts sent, in order. -/
def retryRepair (p : PydanticOutputParser) (svc : CompletionService)
    (originalPrompt : String) :
    Nat → String → ParseFailure → Except FixError JsonValue × List String
  | 0, _, lastF => (Except.error (FixError.budgetExhausted lastF), [])
  | Nat.succ k, badText, lastF =>
    let pr := mkRetryPrompt originalPrompt badText lastF.message
    match svc.complete pr with
    | Except.error e => (Except.error (FixError.serviceFailed e), [pr])
    | Except.ok t2 =>
      match p.parse t2 with
      | Except.ok v => (Except.ok v, [pr])
      | Except.error f2 =>
        let r := retryRepair p svc originalPrompt k t2 f2
        (r.fst, pr :: r.snd)

/-- Modelled from the spec: parse with the original prompt available for
repair, instrumented with the list of prompts sent to the service. -/
def RetryWithErrorOutputParser.parse_with_prompt_run
    (rp : RetryWithErrorOutputParser) (text originalPrompt : String) :
    Except FixError JsonValue × List String :=
  match rp.parser.parse text with
  | Except.ok v => (Except.ok v, [])
  | Except.error f => retryRepair rp.parser rp.llm originalPrompt rp.maxAttempts text f

/-- Retry-with-context parse, result only. -/
def RetryWithErrorOutputParser.parse_with_prompt
    (rp : RetryWithErrorOutputParser) (text originalPrompt : String) :
    Except FixError JsonValue :=
  (rp.parse_with_prompt_run text originalPrompt).fst

/-- Split a character list on the comma delimiter; the result always has
one more part than there are commas. -/
def splitComma : List Char → List (List Char)
  | [] => [[]]
  | c :: rest =>
    match splitComma rest with
    | [] => [[c]]
    | h :: t => if c = commaCh then [] :: h :: t else (c :: h) :: t

/-- Trim surrounding whitespace from a character list. -/
def trimChars (l : List Char) : List Char :=
  ((l.dropWhile isWsCh).reverse.dropWhile isWsCh).reverse

/-- Modelled from the spec: the permissive comma-separated-list parser -
split the raw text on the comma delimiter, trim surrounding whitespace from
every element, discard empty leading and trailing elements; it never
fails. -/
def CommaSeparatedListOutputParser.parse (text : String) : List String :=
  let parts := (splitComma text.data).map (fun l => String.mk (trimChars l))
  ((parts.dropWhile (fun x => x = "")).reverse.dropWhile (fun x => x = "")).reverse

/-- Predicate that accepts every value (a field with no custom validator). -/
def nonePred : JsonValue → Option String := fun _ => none

/-- Validator of the notebook's Joke model: the setup must end with a
question mark, otherwise the validation message is the one the source
raises. -/
def questionMarkPred : JsonValue → Option String := fun v =>
  match v with
  | JsonValue.str s =>
    match s.data.getLast? with
    | some c => if c = '?' then none else some ("Badly formed question!")
    | none => some ("Badly formed question!")
  | _ => none

/-- The notebook's Action model as a schema descriptor: two required string
fields, action and action_input. -/
def ActionDescriptor : Descriptor :=
  ⟨"Action",
   [⟨"action", SemType.string, "action to take", true, nonePred⟩,
    ⟨"action_input", SemType.string, "input to the action", true, nonePred⟩]⟩

/-- The notebook's Actor model as a schema descriptor: a name and a list of
film names. -/
def ActorDescriptor : Descriptor :=
  ⟨"Actor",
   [⟨"name", SemType.string, "name of an actor", true, nonePred⟩,
    ⟨"film_names", SemType.listOf SemType.string,
     "list of names of films they starred in", true, nonePred⟩]⟩

/-- The notebook's Joke model as a schema descriptor, with the custom
setup validator. -/
def JokeDescriptor : Descriptor :=
  ⟨"Joke",
   [⟨"setup", SemType.string, "question to set up a joke", true, questionMarkPred⟩,
    ⟨"punchline", SemType.string, "answer to resolve the joke", true, nonePred⟩]⟩

/-- Minimal descriptor requiring one field named b. -/
def RecBDescriptor : Descriptor :=
  ⟨"Rec", [⟨"b", SemType.number, "required field", true, nonePred⟩]⟩

/-- The notebook's partially complete completion for the Action model. -/
def actionBadText : String := "\x7b\"action\": \"search\"\x7d"

/-- The corrected Action completion the mock service returns. -/
def actionGoodText : String := "\x7b\"action\":\"search\",\"action_input\":\"keyword\"\x7d"

/-- The repaired Action value. -/
def actionValue : JsonValue :=
  JsonValue.obj (JsonFields.cons ("action") (JsonValue.str ("search"))
    (JsonFields.cons ("action_input") (JsonValue.str ("keyword")) JsonFields.nil))

/-- Structured parser over the Action descriptor. -/
def actionParser : PydanticOutputParser := ⟨ActionDescriptor⟩

/-- Mock completion service that always returns the corrected Action
completion. -/
def actionFixService : CompletionService := ⟨fun _ => Except.ok actionGoodText⟩

/-- Fixing parser of the notebook's Action repair scenario (default budget
of one attempt). -/
def actionFixingParser : OutputFixingParser :=
  OutputFixingParser.from_llm actionParser actionFixService

/-- Single-quoted, structurally bracketed but not decodable input. -/
def singleQuotedText : String := "\x7b\x27a\x27: 1\x7d"

/-- Well-formed record input binding only the field a. -/
def onlyFieldAText : String := "\x7b\"a\": 1\x7d"

/-- Head-digit test used to delimit number decoding in round-trip
statements. -/
def headIsDigit : List Char → Bool
  | [] => false
  | c :: _ => c.isDigit

/-- Rebuilding a string from its characters is the identity. -/
theorem mk_data (s : String) : String.mk s.data = s := rfl

/-- Leading whitespace skipping leaves a non-whitespace head alone. -/
theorem skipWs_cons_of_not (c : Char) (l : List Char) (h : isWsCh c = false) :
    skipWs (c :: l) = c :: l := by
  simp [skipWs, List.dropWhile_cons, h]

/-- Consuming an expected sequence off its own concatenation succeeds. -/
theorem stripChars_append (p r : List Char) : stripChars p (p ++ r) = some r := by
  induction p with
  | nil => rfl
  | cons c ps ih => simp [stripChars, ih]

/-- Digit characters decode back to their digit value. -/
theorem digVal_digCh (d : Nat) (h : d < 10) : digVal (digCh d) = d := by
  interval_cases d <;> rfl

/-- Every character produced by digCh is a decimal digit. -/
theorem isDigit_digCh : ∀ d : Nat, (digCh d).isDigit = true
  | 0 => rfl
  | 1 => rfl
  | 2 => rfl
  | 3 => rfl
  | 4 => rfl
  | 5 => rfl
  | 6 => rfl
  | 7 => rfl
  | 8 => rfl
  | _ + 9 => rfl

/-- A digit character differs from any non-digit character. -/
theorem digit_ne (c x : Char) (h : c.isDigit = true) (hx : x.isDigit = false) :
    c ≠ x := by
  intro heq
  rw [heq, hx] at h
  exact absurd h (by decide)

/-- A digit character is not whitespace. -/
theorem digit_not_ws (c : Char) (h : c.isDigit = true) : isWsCh c = false := by
  by_contra hw
  rw [Bool.not_eq_false] at hw
  simp only [isWsCh, Bool.or_eq_true, decide_eq_true_eq] at hw
  rcases hw with ((h1 | h1) | h1) | h1 <;> (subst h1; exact absurd h (by decide))

/-- The decimal rendering of a natural number is nonempty. -/
theorem natChars_ne_nil (n : Nat) : natChars n ≠ [] := by
  rw [natChars]
  split <;> simp

/-- Every character of a decimal rendering is a digit. -/
theorem natChars_digits (n : Nat) : ∀ c ∈ natChars n, c.isDigit = true := by
  induction n using Nat.strong_induction_on with
  | _ n ih =>
    rw [natChars]
    split
    · intro c hc
      simp only [List.mem_singleton] at hc
      subst hc
      exact isDigit_digCh n
    · rename_i h
      intro c hc
      rw [List.mem_append] at hc
      rcases hc with hc | hc
      · exact ih (n / 10) (Nat.div_lt_self (by omega) (by omega)) c hc
      · simp only [List.mem_singleton] at hc
        subst hc
        exact isDigit_digCh _

/-- Folding one more digit multiplies the accumulated value by ten. -/
theorem decDigits_append_one (l : List Char) (c : Char) :
    decDigits (l ++ [c]) = decDigits l * 10 + digVal c := by
  simp [decDigits, List.foldl_append]

/-- Decimal digit decoding inverts decimal rendering. -/
theorem decDigits_natChars (n : Nat) : decDigits (natChars n) = n := by
  induction n using Nat.strong_induction_on with
  | _ n ih =>
    rw [natChars]
    split
    · rename_i h
      simp [decDigits, digVal_digCh n h]
    · rename_i h
      rw [decDigits_append_one, ih (n / 10) (Nat.div_lt_self (by omega) (by omega)),
        digVal_digCh (n % 10) (Nat.mod_lt n (by omega))]
      omega

/-- The digit span of a digit run followed by a non-digit boundary is
exactly the run. -/
theorem span_digits (ds rest : List Char) (hds : ∀ c ∈ ds, c.isDigit = true)
    (hrest : headIsDigit rest = false) :
    (ds ++ rest).span (fun ch => ch.isDigit) = (ds, rest) := by
  rw [List.span_eq_take_drop]
  induction ds with
  | nil =>
    cases rest with
    | nil => rfl
    | cons c r =>
      simp only [headIsDigit] at hrest
      simp [List.takeWhile_cons, List.dropWhile_cons, hrest]
  | cons d ds ih =>
    have hd : d.isDigit = true := hds d (by simp)
    simp only [List.cons_append, List.takeWhile_cons, List.dropWhile_cons, hd]
    have := ih (fun c hc => hds c (by simp [hc]))
    simp only [Prod.mk.injEq] at this
    simp [this.1, this.2]

/-- The decimal rendering starts with a digit character. -/
theorem natChars_cons (n : Nat) :
    ∃ d t, natChars n = d :: t ∧ d.isDigit = true := by
  cases h : natChars n with
  | nil => exact absurd h (natChars_ne_nil n)
  | cons d t =>
    refine ⟨d, t, rfl, ?_⟩
    exact natChars_digits n d (by rw [h]; simp)

/-- Number decoding inverts decimal rendering of a natural number, leaving
a non-digit remainder alone. -/
theorem parseNum_natChars (m : Nat) (rest : List Char)
    (hrest : headIsDigit rest = false) :
    parseNum (natChars m ++ rest) = some (JsonValue.num (Int.ofNat m), rest) := by
  obtain ⟨d, t, hdt, hd⟩ := natChars_cons m
  have hspan := span_digits (natChars m) rest (natChars_digits m) hrest
  rw [hdt] at hspan ⊢
  rw [List.cons_append]
  simp only [parseNum]
  rw [if_neg (digit_ne d minusCh hd (by decide))]
  rw [← List.cons_append, hspan]
  have : decDigits (d :: t) = m := by rw [← hdt]; exact decDigits_natChars m
  simp [this]

/-- Number decoding inverts integer rendering. -/
theorem parseNum_encInt (n : Int) (rest : List Char)
    (hrest : headIsDigit rest = false) :
    parseNum (encInt n ++ rest) = some (JsonValue.num n, rest) := by
  by_cases hn : n < 0
  · rw [encInt, if_pos hn, List.cons_append]
    simp only [parseNum]
    rw [if_pos trivial]
    rw [span_digits (natChars n.natAbs) rest (natChars_digits _) hrest]
    obtain ⟨d, t, hdt, hd⟩ := natChars_cons n.natAbs
    rw [hdt]
    have h1 : decDigits (d :: t) = n.natAbs := by
      rw [← hdt]; exact decDigits_natChars _
    simp only [h1]
    have h2 : -(Int.ofNat n.natAbs) = n := by
      rw [Int.ofNat_eq_natCast]
      omega
    rw [h2]
  · rw [encInt, if_neg hn, parseNum_natChars n.toNat rest hrest]
    have : Int.ofNat n.toNat = n := by
      rw [Int.ofNat_eq_natCast]
      omega
    rw [this]

/-- Escaping a character list unfolds one character at a time. -/
theorem escList_cons (c : Char) (l : List Char) :
    escList (c :: l) = escChar c ++ escList l := rfl

/-- Unescaping is the identity on the two self-escaped characters. -/
theorem unescCh_self (c : Char) (h : c = dquote ∨ c = bslash) :
    unescCh c = some c := by
  rcases h with h | h <;> (subst h; rfl)


/-- One-step unfolding of string-body decoding at a cons. -/
theorem strBody_cons (c : Char) (rest acc : List Char) :
    strBody (c :: rest) acc =
      if c = dquote then some (String.mk acc.reverse, rest)
      else if c = bslash then
        match rest with
        | [] => none
        | e :: rest2 =>
          match unescCh e with
          | some u => strBody rest2 (u :: acc)
          | none => none
      else strBody rest (c :: acc) := by
  rw [strBody.eq_def]

/-- String-body decoding inverts escaping: the escaped characters followed
by a closing quote decode to the original characters appended to the
accumulator. -/
theorem strBody_escList (l : List Char) : ∀ (rest acc : List Char),
    strBody (escList l ++ (dquote :: rest)) acc
      = some (String.mk (acc.reverse ++ l), rest) := by
  induction l with
  | nil =>
    intro rest acc
    show strBody (dquote :: rest) acc = _
    rw [strBody_cons, if_pos rfl]
    simp
  | cons c l ih =>
    intro rest acc
    by_cases hc : c = dquote ∨ c = bslash
    · have he : escChar c = [bslash, c] := by rw [escChar, if_pos hc]
      rw [escList_cons, he]
      simp only [List.cons_append, List.append_assoc]
      rw [strBody_cons]
      rw [if_neg (by decide : ¬(bslash = dquote)), if_pos rfl]
      simp only [unescCh_self c hc, List.nil_append]
      rw [ih rest (c :: acc)]
      simp [List.append_assoc]
    · push_neg at hc
      have he : escChar c = [c] := by rw [escChar, if_neg (by tauto)]
      rw [escList_cons, he]
      simp only [List.cons_append, List.append_assoc, List.nil_append]
      rw [strBody_cons, if_neg hc.1, if_neg hc.2]
      rw [ih rest (c :: acc)]
      simp [List.append_assoc]

mutual

/-- Decoder fuel sufficient for a value. -/
def needV : JsonValue → Nat
  | .str _ => 1
  | .num _ => 1
  | .bool _ => 1
  | .null => 1
  | .arr xs => needL xs + 1
  | .obj fs => needF fs + 1

/-- Decoder fuel sufficient for array elements. -/
def needL : JsonList → Nat
  | .nil => 0
  | .cons v tl => needV v + needL tl + 1

/-- Decoder fuel sufficient for record fields. -/
def needF : JsonFields → Nat
  | .nil => 0
  | .cons _ v tl => needV v + needF tl + 1

end

/-- One unit of fuel always suffices to start decoding a value. -/
theorem needV_pos (v : JsonValue) : 1 ≤ needV v := by
  cases v <;> simp [needV]

/-- Shape of a rendered value: a nonempty character list whose head is not
whitespace and not a closing delimiter. -/
theorem encVal_head (v : JsonValue) :
    ∃ c t, encVal v = c :: t ∧ isWsCh c = false ∧ c ≠ rbrace ∧ c ≠ rbrack := by
  cases v with
  | str s => exact ⟨dquote, escList s.data ++ [dquote], rfl, by decide, by decide, by decide⟩
  | num n =>
    by_cases hn : n < 0
    · refine ⟨minusCh, natChars n.natAbs, ?_, by decide, by decide, by decide⟩
      simp [encVal, encInt, hn]
    · obtain ⟨d, t, hdt, hd⟩ := natChars_cons n.toNat
      refine ⟨d, t, ?_, digit_not_ws d hd, digit_ne d rbrace hd (by decide),
        digit_ne d rbrack hd (by decide)⟩
      simp [encVal, encInt, hn, hdt]
  | bool b =>
    cases b
    · exact ⟨'f', ['a', 'l', 's', 'e'], rfl, by decide, by decide, by decide⟩
    · exact ⟨'t', ['r', 'u', 'e'], rfl, by decide, by decide, by decide⟩
  | null => exact ⟨'n', ['u', 'l', 'l'], rfl, by decide, by decide, by decide⟩
  | arr xs => exact ⟨lbrack, encList xs ++ [rbrack], rfl, by decide, by decide, by decide⟩
  | obj fs => exact ⟨lbrace, encFields fs ++ [rbrace], rfl, by decide, by decide, by decide⟩

/-- Whitespace skipping does not change a rendered value. -/
theorem skipWs_encVal (v : JsonValue) (rest : List Char) :
    skipWs (encVal v ++ rest) = encVal v ++ rest := by
  obtain ⟨c, t, he, hw, _, _⟩ := encVal_head v
  rw [he, List.cons_append, skipWs_cons_of_not c _ hw]

mutual

theorem rtV : ∀ (v : JsonValue) (fuel : Nat) (rest : List Char),
    needV v ≤ fuel → headIsDigit rest = false →
    parseVal fuel (encVal v ++ rest) = some (v, rest)
  | v, 0, _, hf, _ => by
    have := needV_pos v
    omega
  | .str s, Nat.succ f, rest, _, _ => by
    have he : encVal (JsonValue.str s) ++ rest
        = dquote :: (escList s.data ++ (dquote :: rest)) := by
      simp [encVal, encStr]
    rw [he, parseVal.eq_def]
    simp only []
    rw [skipWs_cons_of_not _ _ (by decide)]
    simp only []
    rw [if_pos trivial, strBody_escList s.data rest []]
    simp [mk_data]
  | .num n, Nat.succ f, rest, _, hd => by
    by_cases hn : n < 0
    · have he : encVal (JsonValue.num n) ++ rest = minusCh :: (natChars n.natAbs ++ rest) := by
        simp [encVal, encInt, hn]
      rw [he, parseVal.eq_def]
      simp only []
      rw [skipWs_cons_of_not _ _ (by decide)]
      simp only []
      rw [if_neg (by decide), if_neg (by decide), if_neg (by decide), if_neg (by decide),
        if_neg (by decide), if_neg (by decide), if_pos (by decide)]
      have h2 : minusCh :: (natChars n.natAbs ++ rest) = encInt n ++ rest := by
        simp [encInt, hn]
      rw [h2, parseNum_encInt n rest hd]
    · obtain ⟨dch, t, hdt, hdig⟩ := natChars_cons n.toNat
      have he : encVal (JsonValue.num n) ++ rest = dch :: (t ++ rest) := by
        simp [encVal, encInt, hn, hdt]
      rw [he, parseVal.eq_def]
      simp only []
      rw [skipWs_cons_of_not _ _ (digit_not_ws dch hdig)]
      simp only []
      rw [if_neg (digit_ne dch dquote hdig (by decide)),
        if_neg (digit_ne dch lbrace hdig (by decide)),
        if_neg (digit_ne dch lbrack hdig (by decide)),
        if_neg (digit_ne dch 't' hdig (by decide)),
        if_neg (digit_ne dch 'f' hdig (by decide)),
        if_neg (digit_ne dch 'n' hdig (by decide)),
        if_pos (by simp [hdig])]
      have h2 : dch :: (t ++ rest) = encInt n ++ rest := by
        simp [encInt, hn, hdt]
      rw [h2, parseNum_encInt n rest hd]
  | .bool true, Nat.succ f, rest, _, _ => by
    have he : encVal (JsonValue.bool true) ++ rest = 't' :: ('r' :: 'u' :: 'e' :: rest) := by
      simp [encVal, trueChars]
    rw [he, parseVal.eq_def]
    simp only []
    rw [skipWs_cons_of_not _ _ (by decide)]
    simp only []
    rw [if_neg (by decide), if_neg (by decide), if_neg (by decide), if_pos trivial]
    rw [show ('r' :: 'u' :: 'e' :: rest) = ['r', 'u', 'e'] ++ rest from rfl, stripChars_append]
  | .bool false, Nat.succ f, rest, _, _ => by
    have he : encVal (JsonValue.bool false) ++ rest
        = 'f' :: ('a' :: 'l' :: 's' :: 'e' :: rest) := by
      simp [encVal, falseChars]
    rw [he, parseVal.eq_def]
    simp only []
    rw [skipWs_cons_of_not _ _ (by decide)]
    simp only []
    rw [if_neg (by decide), if_neg (by decide), if_neg (by decide), if_neg (by decide),
      if_pos trivial]
    rw [show ('a' :: 'l' :: 's' :: 'e' :: rest) = ['a', 'l', 's', 'e'] ++ rest from rfl,
      stripChars_append]
  | .null, Nat.succ f, rest, _, _ => by
    have he : encVal JsonValue.null ++ rest = 'n' :: ('u' :: 'l' :: 'l' :: rest) := by
      simp [encVal, nullChars]
    rw [he, parseVal.eq_def]
    simp only []
    rw [skipWs_cons_of_not _ _ (by decide)]
    simp only []
    rw [if_neg (by decide), if_neg (by decide), if_neg (by decide), if_neg (by decide),
      if_neg (by decide), if_pos trivial]
    rw [show ('u' :: 'l' :: 'l' :: rest) = ['u', 'l', 'l'] ++ rest from rfl, stripChars_append]
  | .arr .nil, Nat.succ f, rest, _, _ => by
    have he : encVal (JsonValue.arr JsonList.nil) ++ rest = lbrack :: (rbrack :: rest) := by
      simp [encVal, encList]
    rw [he, parseVal.eq_def]
    simp only []
    rw [skipWs_cons_of_not _ _ (by decide)]
    simp only []
    rw [if_neg (by decide), if_neg (by decide), if_pos (by decide)]
    rw [skipWs_cons_of_not _ _ (by decide)]
    simp only []
    rw [if_pos (by decide)]
  | .arr (.cons w tl), Nat.succ f, rest, hf, _ => by
    obtain ⟨c0, t0, he0, hw0, _, hnb0⟩ := encVal_head w
    obtain ⟨Y, hY⟩ : ∃ Y, encList (JsonList.cons w tl) = c0 :: Y := by
      cases tl <;> simp [encList, he0]
    have he : encVal (JsonValue.arr (JsonList.cons w tl)) ++ rest
        = lbrack :: (encList (JsonList.cons w tl) ++ (rbrack :: rest)) := by
      simp [encVal, List.append_assoc]
    rw [he, parseVal.eq_def]
    simp only []
    rw [skipWs_cons_of_not _ _ (by decide)]
    simp only []
    rw [if_neg (by decide), if_neg (by decide), if_pos (by decide)]
    rw [hY, List.cons_append, skipWs_cons_of_not c0 _ hw0]
    simp only []
    rw [if_neg hnb0, ← List.cons_append, ← hY]
    rw [rtL (JsonList.cons w tl) f rest (by simp) (by simp only [needV] at hf; omega)]
  | .obj .nil, Nat.succ f, rest, _, _ => by
    have he : encVal (JsonValue.obj JsonFields.nil) ++ rest = lbrace :: (rbrace :: rest) := by
      simp [encVal, encFields]
    rw [he, parseVal.eq_def]
    simp only []
    rw [skipWs_cons_of_not _ _ (by decide)]
    simp only []
    rw [if_neg (by decide), if_pos (by decide)]
    rw [skipWs_cons_of_not _ _ (by decide)]
    simp only []
    rw [if_pos (by decide)]
  | .obj (.cons k w tl), Nat.succ f, rest, hf, _ => by
    obtain ⟨Y, hY⟩ : ∃ Y, encFields (JsonFields.cons k w tl) = dquote :: Y := by
      cases tl <;> simp [encFields, encStr]
    have he : encVal (JsonValue.obj (JsonFields.cons k w tl)) ++ rest
        = lbrace :: (encFields (JsonFields.cons k w tl) ++ (rbrace :: rest)) := by
      simp [encVal, List.append_assoc]
    rw [he, parseVal.eq_def]
    simp only []
    rw [skipWs_cons_of_not _ _ (by decide)]
    simp only []
    rw [if_neg (by decide), if_pos (by decide)]
    rw [hY, List.cons_append, skipWs_cons_of_not dquote _ (by decide)]
    simp only []
    rw [if_neg (by decide), ← List.cons_append, ← hY]
    rw [rtF (JsonFields.cons k w tl) f rest (by simp) (by simp only [needV] at hf; omega)]

theorem rtL : ∀ (xs : JsonList) (fuel : Nat) (rest : List Char), xs ≠ JsonList.nil →
    needL xs ≤ fuel → parseElemsF fuel (encList xs ++ (rbrack :: rest)) = some (xs, rest)
  | .nil, _, _, hne, _ => absurd rfl hne
  | .cons v tl, 0, _, _, hf => by
    simp only [needL] at hf
    omega
  | .cons v tl, Nat.succ f, rest, _, hf => by
    rw [parseElemsF.eq_def]
    simp only []
    cases tl with
    | nil =>
      have he : encList (JsonList.cons v JsonList.nil) ++ (rbrack :: rest)
          = encVal v ++ (rbrack :: rest) := by
        simp [encList]
      rw [he, rtV v f (rbrack :: rest) (by simp only [needL] at hf; omega) rfl]
      simp only []
      rw [skipWs_cons_of_not _ _ (by decide)]
      simp only []
      rw [if_neg (by decide), if_pos (by decide)]
    | cons w tl2 =>
      have he : encList (JsonList.cons v (JsonList.cons w tl2)) ++ (rbrack :: rest)
          = encVal v ++ (commaCh :: (encList (JsonList.cons w tl2) ++ (rbrack :: rest))) := by
        simp [encList, List.append_assoc]
      rw [he, rtV v f (commaCh :: (encList (JsonList.cons w tl2) ++ (rbrack :: rest)))
        (by simp only [needL] at hf; omega) rfl]
      simp only []
      rw [skipWs_cons_of_not _ _ (by decide)]
      simp only []
      rw [if_pos (by decide)]
      obtain ⟨c0, t0, he0, hw0, _, _⟩ := encVal_head w
      obtain ⟨Y, hY⟩ : ∃ Y, encList (JsonList.cons w tl2) = c0 :: Y := by
        cases tl2 <;> simp [encList, he0]
      rw [hY, List.cons_append, skipWs_cons_of_not c0 _ hw0, ← List.cons_append, ← hY]
      rw [rtL (JsonList.cons w tl2) f rest (by simp) (by simp only [needL] at hf ⊢; omega)]

theorem rtF : ∀ (fs : JsonFields) (fuel : Nat) (rest : List Char), fs ≠ JsonFields.nil →
    needF fs ≤ fuel → parseFieldsF fuel (encFields fs ++ (rbrace :: rest)) = some (fs, rest)
  | .nil, _, _, hne, _ => absurd rfl hne
  | .cons k v tl, 0, _, _, hf => by
    simp only [needF] at hf
    omega
  | .cons k v tl, Nat.succ f, rest, _, hf => by
    rw [parseFieldsF.eq_def]
    simp only []
    cases tl with
    | nil =>
      have he : encFields (JsonFields.cons k v JsonFields.nil) ++ (rbrace :: rest)
          = dquote :: (escList k.data ++ (dquote :: (colonCh :: (encVal v ++ (rbrace :: rest))))) := by
        simp [encFields, encStr, List.append_assoc]
      rw [he]
      simp only []
      rw [if_pos trivial, strBody_escList k.data _ []]
      simp only [List.reverse_nil, List.nil_append, mk_data]
      rw [skipWs_cons_of_not _ _ (by decide)]
      simp only []
      rw [if_pos (by decide)]
      rw [rtV v f (rbrace :: rest) (by simp only [needF] at hf; omega) rfl]
      simp only []
      rw [skipWs_cons_of_not _ _ (by decide)]
      simp only []
      rw [if_neg (by decide), if_pos (by decide)]
    | cons k2 w tl2 =>
      have he : encFields (JsonFields.cons k v (JsonFields.cons k2 w tl2)) ++ (rbrace :: rest)
          = dquote :: (escList k.data ++ (dquote :: (colonCh ::
              (encVal v ++ (commaCh :: (encFields (JsonFields.cons k2 w tl2) ++ (rbrace :: rest))))))) := by
        simp [encFields, encStr, List.append_assoc]
      rw [he]
      simp only []
      rw [if_pos trivial, strBody_escList k.data _ []]
      simp only [List.reverse_nil, List.nil_append, mk_data]
      rw [skipWs_cons_of_not _ _ (by decide)]
      simp only []
      rw [if_pos (by decide)]
      rw [rtV v f (commaCh :: (encFields (JsonFields.cons k2 w tl2) ++ (rbrace :: rest)))
        (by simp only [needF] at hf; omega) rfl]
      simp only []
      rw [skipWs_cons_of_not _ _ (by decide)]
      simp only []
      rw [if_pos (by decide)]
      obtain ⟨Y, hY⟩ : ∃ Y, encFields (JsonFields.cons k2 w tl2) = dquote :: Y := by
        cases tl2 <;> simp [encFields, encStr]
      rw [hY, List.cons_append, skipWs_cons_of_not dquote _ (by decide), ← List.cons_append, ← hY]
      rw [rtF (JsonFields.cons k2 w tl2) f rest (by simp) (by simp only [needF] at hf ⊢; omega)]

end

mutual

/-- The fuel a value needs is at most the length of its rendering. -/
theorem needV_le_len : ∀ v : JsonValue, needV v ≤ (encVal v).length
  | .str s => by simp [needV, encVal, encStr]
  | .num n => by
    by_cases hn : n < 0
    · simp [needV, encVal, encInt, hn]
    · simp only [needV, encVal, encInt, if_neg hn]
      cases h : natChars n.toNat with
      | nil => exact absurd h (natChars_ne_nil n.toNat)
      | cons a b => simp
  | .bool true => by simp [needV, encVal, trueChars]
  | .bool false => by simp [needV, encVal, falseChars]
  | .null => by simp [needV, encVal, nullChars]
  | .arr xs => by
    have := needL_le_len xs
    simp only [needV, encVal, List.length_cons, List.length_append]
    omega
  | .obj fs => by
    have := needF_le_len fs
    simp only [needV, encVal, List.length_cons, List.length_append]
    omega

/-- The fuel array elements need is at most one more than the length of
their rendering. -/
theorem needL_le_len : ∀ xs : JsonList, needL xs ≤ (encList xs).length + 1
  | .nil => by simp [needL]
  | .cons v .nil => by
    have := needV_le_len v
    rw [show needL (JsonList.cons v JsonList.nil) = needV v + 1 from rfl,
      show encList (JsonList.cons v JsonList.nil) = encVal v from rfl]
    omega
  | .cons v (.cons w tl) => by
    have h1 := needV_le_len v
    have h2 := needL_le_len (JsonList.cons w tl)
    rw [show needL (JsonList.cons v (JsonList.cons w tl))
        = needV v + needL (JsonList.cons w tl) + 1 from rfl,
      show encList (JsonList.cons v (JsonList.cons w tl))
        = encVal v ++ commaCh :: encList (JsonList.cons w tl) from rfl]
    simp only [List.length_append, List.length_cons]
    omega

/-- The fuel record fields need is at most one more than the length of
their rendering. -/
theorem needF_le_len : ∀ fs : JsonFields, needF fs ≤ (encFields fs).length + 1
  | .nil => by simp [needF]
  | .cons k v .nil => by
    have := needV_le_len v
    rw [show needF (JsonFields.cons k v JsonFields.nil) = needV v + 1 from rfl,
      show encFields (JsonFields.cons k v JsonFields.nil)
        = encStr k ++ colonCh :: encVal v from rfl]
    simp only [List.length_append, List.length_cons]
    omega
  | .cons k v (.cons k2 w tl) => by
    have h1 := needV_le_len v
    have h2 := needF_le_len (JsonFields.cons k2 w tl)
    rw [show needF (JsonFields.cons k v (JsonFields.cons k2 w tl))
        = needV v + needF (JsonFields.cons k2 w tl) + 1 from rfl,
      show encFields (JsonFields.cons k v (JsonFields.cons k2 w tl))
        = encStr k ++ colonCh :: (encVal v ++ commaCh :: encFields (JsonFields.cons k2 w tl)) from rfl]
    simp only [List.length_append, List.length_cons]
    omega

end

/-- Decoding inverts rendering: the strict decoder recovers exactly the
value that was rendered. -/
theorem decodeJson_render (v : JsonValue) : decodeJson (render v) = Except.ok v := by
  rw [decodeJson]
  have hdata : (render v).data = encVal v := rfl
  rw [hdata]
  have hrt := rtV v ((encVal v).length + 1) []
    (by have := needV_le_len v; omega) rfl
  rw [List.append_nil] at hrt
  rw [hrt]
  rfl

theorem scanBal_cons (c : Char) (cs : List Char) (st : ScanState) :
    scanBal (c :: cs) st =
      if (scanStep st c).depth = 0 then some [c]
      else Option.map (fun l => c :: l) (scanBal cs (scanStep st c)) := rfl

theorem scanStep_out_plain (d : Nat) (e : Bool) (c : Char) (h1 : c ≠ dquote)
    (h2 : c ≠ lbrace) (h3 : c ≠ rbrace) :
    scanStep ⟨d, false, e⟩ c = ⟨d, false, false⟩ := by
  simp [scanStep, h1, h2, h3]

theorem scanStep_out_dquote (d : Nat) (e : Bool) :
    scanStep ⟨d, false, e⟩ dquote = ⟨d, true, false⟩ := by
  simp [scanStep]

theorem scanStep_out_lbrace (d : Nat) (e : Bool) :
    scanStep ⟨d, false, e⟩ lbrace = ⟨d + 1, false, false⟩ := by
  have h1 : ¬(lbrace = dquote) := by decide
  simp [scanStep, h1]

theorem scanStep_out_rbrace (d : Nat) (e : Bool) :
    scanStep ⟨d, false, e⟩ rbrace = ⟨d - 1, false, false⟩ := by
  have h1 : ¬(rbrace = dquote) := by decide
  have h2 : ¬(rbrace = lbrace) := by decide
  simp [scanStep, h1, h2]

theorem scanStep_inStr_esc (d : Nat) (c : Char) :
    scanStep ⟨d, true, true⟩ c = ⟨d, true, false⟩ := by
  simp [scanStep]

theorem scanStep_inStr_bslash (d : Nat) :
    scanStep ⟨d, true, false⟩ bslash = ⟨d, true, true⟩ := by
  simp [scanStep]

theorem scanStep_inStr_dquote (d : Nat) :
    scanStep ⟨d, true, false⟩ dquote = ⟨d, false, false⟩ := by
  have h1 : ¬(dquote = bslash) := by decide
  simp [scanStep, h1]

theorem scanStep_inStr_other (d : Nat) (c : Char) (h1 : c ≠ bslash) (h2 : c ≠ dquote) :
    scanStep ⟨d, true, false⟩ c = ⟨d, true, false⟩ := by
  simp [scanStep, h1, h2]

theorem scanBal_plain_list : ∀ (l : List Char),
    (∀ c ∈ l, c ≠ dquote ∧ c ≠ lbrace ∧ c ≠ rbrace) →
    ∀ (rest : List Char) (d : Nat), 1 ≤ d →
    scanBal (l ++ rest) ⟨d, false, false⟩
      = Option.map (fun t => l ++ t) (scanBal rest ⟨d, false, false⟩)
  | [], _, rest, d, _ => by
    cases h : scanBal rest ⟨d, false, false⟩ <;> simp [h]
  | c :: l, hp, rest, d, hd => by
    obtain ⟨h1, h2, h3⟩ := hp c (by simp)
    rw [List.cons_append, scanBal_cons, scanStep_out_plain d false c h1 h2 h3]
    rw [if_neg (show ¬(d = 0) by omega)]
    rw [scanBal_plain_list l (fun x hx => hp x (by simp [hx])) rest d hd]
    cases h : scanBal rest ⟨d, false, false⟩ <;> simp [h]

theorem scanBal_escList : ∀ (l : List Char) (rest : List Char) (d : Nat), 1 ≤ d →
    scanBal (escList l ++ rest) ⟨d, true, false⟩
      = Option.map (fun t => escList l ++ t) (scanBal rest ⟨d, true, false⟩)
  | [], rest, d, _ => by
    cases h : scanBal rest ⟨d, true, false⟩ <;> simp [escList, h]
  | c :: l, rest, d, hd => by
    by_cases hc : c = dquote ∨ c = bslash
    · have he : escChar c = [bslash, c] := by rw [escChar, if_pos hc]
      rw [escList_cons, he]
      simp only [List.cons_append, List.append_assoc, List.nil_append]
      rw [scanBal_cons, scanStep_inStr_bslash]
      rw [if_neg (show ¬(d = 0) by omega)]
      rw [scanBal_cons, scanStep_inStr_esc]
      rw [if_neg (show ¬(d = 0) by omega)]
      rw [scanBal_escList l rest d hd]
      cases h : scanBal rest ⟨d, true, false⟩ <;> simp [h, escList_cons, he]
    · push_neg at hc
      have he : escChar c = [c] := by rw [escChar, if_neg (by tauto)]
      rw [escList_cons, he]
      simp only [List.cons_append, List.append_assoc, List.nil_append]
      rw [scanBal_cons, scanStep_inStr_other d c hc.2 hc.1]
      rw [if_neg (show ¬(d = 0) by omega)]
      rw [scanBal_escList l rest d hd]
      cases h : scanBal rest ⟨d, true, false⟩ <;> simp [h, escList_cons, he]

theorem scanBal_encStr (s : String) (rest : List Char) (d : Nat) (hd : 1 ≤ d) :
    scanBal (encStr s ++ rest) ⟨d, false, false⟩
      = Option.map (fun t => encStr s ++ t) (scanBal rest ⟨d, false, false⟩) := by
  rw [show encStr s ++ rest = dquote :: (escList s.data ++ (dquote :: rest)) by
    simp [encStr]]
  rw [scanBal_cons, scanStep_out_dquote]
  rw [if_neg (show ¬(d = 0) by omega)]
  rw [scanBal_escList s.data (dquote :: rest) d hd]
  rw [scanBal_cons, scanStep_inStr_dquote]
  rw [if_neg (show ¬(d = 0) by omega)]
  cases h : scanBal rest ⟨d, false, false⟩ <;> simp [h, encStr, List.append_assoc]

theorem encInt_plain (n : Int) : ∀ c ∈ encInt n, c ≠ dquote ∧ c ≠ lbrace ∧ c ≠ rbrace := by
  intro c hc
  by_cases hn : n < 0
  · rw [encInt, if_pos hn] at hc
    rcases List.mem_cons.mp hc with h | h
    · subst h
      exact ⟨by decide, by decide, by decide⟩
    · have hd := natChars_digits n.natAbs c h
      exact ⟨digit_ne c dquote hd (by decide), digit_ne c lbrace hd (by decide),
        digit_ne c rbrace hd (by decide)⟩
  · rw [encInt, if_neg hn] at hc
    have hd := natChars_digits n.toNat c hc
    exact ⟨digit_ne c dquote hd (by decide), digit_ne c lbrace hd (by decide),
      digit_ne c rbrace hd (by decide)⟩

mutual

theorem scanEncV : ∀ (v : JsonValue) (rest : List Char) (d : Nat), 1 ≤ d →
    scanBal (encVal v ++ rest) ⟨d, false, false⟩
      = Option.map (fun t => encVal v ++ t) (scanBal rest ⟨d, false, false⟩)
  | .str s, rest, d, hd => scanBal_encStr s rest d hd
  | .num n, rest, d, hd => scanBal_plain_list (encInt n) (encInt_plain n) rest d hd
  | .bool true, rest, d, hd => scanBal_plain_list trueChars (by decide) rest d hd
  | .bool false, rest, d, hd => scanBal_plain_list falseChars (by decide) rest d hd
  | .null, rest, d, hd => scanBal_plain_list nullChars (by decide) rest d hd
  | .arr xs, rest, d, hd => by
    rw [show encVal (JsonValue.arr xs) ++ rest = lbrack :: (encList xs ++ (rbrack :: rest)) by
      simp [encVal, List.append_assoc]]
    rw [scanBal_cons, scanStep_out_plain d false lbrack (by decide) (by decide) (by decide)]
    rw [if_neg (show ¬(d = 0) by omega)]
    rw [scanEncL xs (rbrack :: rest) d hd]
    rw [scanBal_cons, scanStep_out_plain d false rbrack (by decide) (by decide) (by decide)]
    rw [if_neg (show ¬(d = 0) by omega)]
    cases h : scanBal rest ⟨d, false, false⟩ <;> simp [h, encVal, List.append_assoc]
  | .obj fs, rest, d, hd => by
    rw [show encVal (JsonValue.obj fs) ++ rest = lbrace :: (encFields fs ++ (rbrace :: rest)) by
      simp [encVal, List.append_assoc]]
    rw [scanBal_cons, scanStep_out_lbrace]
    rw [if_neg (show ¬(d + 1 = 0) by omega)]
    rw [scanEncF fs (rbrace :: rest) (d + 1) (by omega)]
    rw [scanBal_cons, scanStep_out_rbrace]
    rw [show d + 1 - 1 = d from by omega]
    rw [if_neg (show ¬(d = 0) by omega)]
    cases h : scanBal rest ⟨d, false, false⟩ <;> simp [h, encVal, List.append_assoc]

theorem scanEncL : ∀ (xs : JsonList) (rest : List Char) (d : Nat), 1 ≤ d →
    scanBal (encList xs ++ rest) ⟨d, false, false⟩
      = Option.map (fun t => encList xs ++ t) (scanBal rest ⟨d, false, false⟩)
  | .nil, rest, d, _ => by
    cases h : scanBal rest ⟨d, false, false⟩ <;> simp [encList, h]
  | .cons v .nil, rest, d, hd => by
    rw [show encList (JsonList.cons v JsonList.nil) = encVal v from rfl]
    exact scanEncV v rest d hd
  | .cons v (.cons w tl), rest, d, hd => by
    rw [show encList (JsonList.cons v (JsonList.cons w tl)) ++ rest
        = encVal v ++ (commaCh :: (encList (JsonList.cons w tl) ++ rest)) by
      simp [encList, List.append_assoc]]
    rw [scanEncV v _ d hd]
    rw [scanBal_cons, scanStep_out_plain d false commaCh (by decide) (by decide) (by decide)]
    rw [if_neg (show ¬(d = 0) by omega)]
    rw [scanEncL (JsonList.cons w tl) rest d hd]
    cases h : scanBal rest ⟨d, false, false⟩ <;> simp [h, encList, List.append_assoc]

theorem scanEncF : ∀ (fs : JsonFields) (rest : List Char) (d : Nat), 1 ≤ d →
    scanBal (encFields fs ++ rest) ⟨d, false, false⟩
      = Option.map (fun t => encFields fs ++ t) (scanBal rest ⟨d, false, false⟩)
  | .nil, rest, d, _ => by
    cases h : scanBal rest ⟨d, false, false⟩ <;> simp [encFields, h]
  | .cons k v .nil, rest, d, hd => by
    rw [show encFields (JsonFields.cons k v JsonFields.nil) ++ rest
        = encStr k ++ (colonCh :: (encVal v ++ rest)) by simp [encFields, List.append_assoc]]
    rw [scanBal_encStr k _ d hd]
    rw [scanBal_cons, scanStep_out_plain d false colonCh (by decide) (by decide) (by decide)]
    rw [if_neg (show ¬(d = 0) by omega)]
    rw [scanEncV v rest d hd]
    cases h : scanBal rest ⟨d, false, false⟩ <;> simp [h, encFields, List.append_assoc]
  | .cons k v (.cons k2 w tl), rest, d, hd => by
    rw [show encFields (JsonFields.cons k v (JsonFields.cons k2 w tl)) ++ rest
        = encStr k ++ (colonCh :: (encVal v
            ++ (commaCh :: (encFields (JsonFields.cons k2 w tl) ++ rest)))) by
      simp [encFields, List.append_assoc]]
    rw [scanBal_encStr k _ d hd]
    rw [scanBal_cons, scanStep_out_plain d false colonCh (by decide) (by decide) (by decide)]
    rw [if_neg (show ¬(d = 0) by omega)]
    rw [scanEncV v _ d hd]
    rw [scanBal_cons, scanStep_out_plain d false commaCh (by decide) (by decide) (by decide)]
    rw [if_neg (show ¬(d = 0) by omega)]
    rw [scanEncF (JsonFields.cons k2 w tl) rest d hd]
    cases h : scanBal rest ⟨d, false, false⟩ <;> simp [h, encFields, List.append_assoc]

end

theorem extractSpanChars_cons (c : Char) (cs : List Char) :
    extractSpanChars (c :: cs) =
      if c = lbrace then scanBal (c :: cs) ⟨0, false, false⟩ else extractSpanChars cs := rfl

theorem extract_render_obj (fs : JsonFields) :
    extractSpanChars (encVal (JsonValue.obj fs)) = some (encVal (JsonValue.obj fs)) := by
  rw [show encVal (JsonValue.obj fs) = lbrace :: (encFields fs ++ [rbrace]) from rfl]
  rw [extractSpanChars_cons, if_pos rfl]
  rw [scanBal_cons, scanStep_out_lbrace]
  rw [if_neg (show ¬(0 + 1 = 0) by omega)]
  rw [show encFields fs ++ [rbrace] = encFields fs ++ (rbrace :: ([] : List Char)) from rfl]
  rw [scanEncF fs (rbrace :: []) (0 + 1) (by omega)]
  rw [scanBal_cons, scanStep_out_rbrace]
  rw [show 0 + 1 - 1 = 0 from rfl]
  rw [if_pos rfl]
  simp

/-- Extraction of a rendered record recovers exactly the rendered span. -/
theorem extractSpan_render_obj (fs : JsonFields) :
    extractSpan (render (JsonValue.obj fs)) = some (render (JsonValue.obj fs)) := by
  rw [extractSpan, show (render (JsonValue.obj fs)).data = encVal (JsonValue.obj fs) from rfl,
    extract_render_obj fs]
  rfl

/-- Validation success on a record is only possible for a record value. -/
theorem parse_of_extract_decode_validate (d : Descriptor) (text spanStr : String)
    (v : JsonValue) (hx : extractSpan text = some spanStr)
    (hdec : decodeJson spanStr = Except.ok v) (hval : validate d v = Except.ok v) :
    PydanticOutputParser.parse ⟨d⟩ text = Except.ok v := by
  rw [PydanticOutputParser.parse, hx]
  simp only []
  rw [decodeAndValidate.eq_def, hdec]
  simp only []
  rw [hval]

/-- Round trip: rendering a schema-valid record and parsing it back yields
the original record. -/
theorem parse_render_obj (d : Descriptor) (fs : JsonFields)
    (hval : validate d (JsonValue.obj fs) = Except.ok (JsonValue.obj fs)) :
    PydanticOutputParser.parse ⟨d⟩ (render (JsonValue.obj fs))
      = Except.ok (JsonValue.obj fs) :=
  parse_of_extract_decode_validate d (render (JsonValue.obj fs)) (render (JsonValue.obj fs))
    (JsonValue.obj fs) (extractSpan_render_obj fs) (decodeJson_render (JsonValue.obj fs)) hval

/-- Modelled from the spec: a top-level balanced-brace span - nonempty,
starting at an opening brace, with the literal-aware depth returning to
zero exactly at its end and at no earlier nonempty point. -/
def IsBalancedSpan (cs : List Char) : Prop :=
  cs ≠ [] ∧ cs.head? = some lbrace ∧
    (cs.foldl scanStep ⟨0, false, false⟩).depth = 0 ∧
    ∀ i, i < cs.length → 0 < i →
      ((cs.take i).foldl scanStep ⟨0, false, false⟩).depth ≠ 0

/-- The scanner stops exactly at the end of a balanced span: a span whose
depth first returns to zero at its end is consumed whole, whatever
follows. -/
theorem scanBal_first : ∀ (span post : List Char) (st : ScanState),
    span ≠ [] →
    (span.foldl scanStep st).depth = 0 →
    (∀ p q, span = p ++ q → p ≠ [] → q ≠ [] → (p.foldl scanStep st).depth ≠ 0) →
    scanBal (span ++ post) st = some span
  | [], _, _, hne, _, _ => absurd rfl hne
  | c :: span, post, st, _, hdepth, hpre => by
    rw [List.cons_append, scanBal_cons]
    cases span with
    | nil =>
      simp only [List.foldl_cons, List.foldl_nil] at hdepth
      rw [if_pos hdepth]
    | cons c2 span2 =>
      have hne2 : (scanStep st c).depth ≠ 0 := by
        have := hpre [c] (c2 :: span2) rfl (by simp) (by simp)
        simpa using this
      rw [if_neg hne2]
      rw [scanBal_first (c2 :: span2) post (scanStep st c) (by simp)
        (by simpa using hdepth)
        (fun p q hpq hp hq => by
          have := hpre (c :: p) q (by simp [hpq]) (by simp) hq
          simpa using this)]
      rfl

/-- Extraction skips a brace-free leading segment. -/
theorem extractSpanChars_skip : ∀ (pre cs : List Char), lbrace ∉ pre →
    extractSpanChars (pre ++ cs) = extractSpanChars cs
  | [], _, _ => rfl
  | c :: pre, cs, hp => by
    rw [List.cons_append, extractSpanChars_cons,
      if_neg (fun h => hp (by rw [h]; simp)), extractSpanChars_skip pre cs (fun h => hp (by simp [h]))]

theorem extract_first_balanced_aux (pre span post : List Char) (hpre : lbrace ∉ pre)
    (hspan : IsBalancedSpan span) :
    extractSpanChars (pre ++ (span ++ post)) = some span := by
  obtain ⟨hne, hhead, hdep, htake⟩ := hspan
  rw [extractSpanChars_skip pre _ hpre]
  obtain ⟨tail, htail⟩ : ∃ tail, span = lbrace :: tail := by
    cases span with
    | nil => exact absurd rfl hne
    | cons c t =>
      refine ⟨t, ?_⟩
      simp only [List.head?] at hhead
      rw [Option.some.injEq] at hhead
      rw [hhead]
  rw [htail, List.cons_append, extractSpanChars_cons, if_pos rfl, ← List.cons_append, ← htail]
  apply scanBal_first span post ⟨0, false, false⟩ hne hdep
  intro p q hpq hp hq
  have hlen : p.length < span.length := by
    rw [hpq, List.length_append]
    cases q with
    | nil => exact absurd rfl hq
    | cons _ _ => simp
  have hpos : 0 < p.length := by
    cases p with
    | nil => exact absurd rfl hp
    | cons _ _ => simp
  have hmain := htake p.length hlen hpos
  rw [hpq, List.take_left] at hmain
  exact hmain

theorem fixingRepair_exhausts (p : PydanticOutputParser) (svc : CompletionService)
    (hsvc : ∀ pr, ∃ t f, svc.complete pr = Except.ok t ∧ p.parse t = Except.error f) :
    ∀ (n : Nat) (f0 : ParseFailure), ∃ last,
      (fixingRepair p svc n f0).fst = Except.error (FixError.budgetExhausted last) ∧
      (fixingRepair p svc n f0).snd.length = n ∧
      ((n = 0 ∧ last = f0) ∨
        ∃ ps pr t, (fixingRepair p svc n f0).snd = ps ++ [pr]
          ∧ svc.complete pr = Except.ok t ∧ p.parse t = Except.error last)
  | 0, f0 => ⟨f0, rfl, rfl, Or.inl ⟨rfl, rfl⟩⟩
  | Nat.succ k, f0 => by
    obtain ⟨t, f, hok, hfail⟩ := hsvc (mkFixPrompt p.descriptor f0)
    obtain ⟨last, h1, h2, h3⟩ := fixingRepair_exhausts p svc hsvc k f
    have hstep : fixingRepair p svc (Nat.succ k) f0
        = ((fixingRepair p svc k f).fst,
           mkFixPrompt p.descriptor f0 :: (fixingRepair p svc k f).snd) := by
      simp only [fixingRepair]
      rw [hok]
      simp only []
      rw [hfail]
    refine ⟨last, ?_, ?_, Or.inr ?_⟩
    · rw [hstep]
      exact h1
    · rw [hstep]
      simp [h2]
    · rcases h3 with ⟨hk0, hlast⟩ | ⟨ps, pr, t2, hsnd, hok2, hfail2⟩
      · refine ⟨[], mkFixPrompt p.descriptor f0, t, ?_, hok, ?_⟩
        · have hnil : (fixingRepair p svc k f).snd = [] := by
            have hlen : (fixingRepair p svc k f).snd.length = 0 := by omega
            exact List.length_eq_zero.mp hlen
          rw [hstep, hnil]
          rfl
        · rw [hlast]
          exact hfail
      · refine ⟨mkFixPrompt p.descriptor f0 :: ps, pr, t2, ?_, hok2, hfail2⟩
        rw [hstep, hsnd]
        rfl

theorem mkRetryPrompt_contains (op bt e : String) :
    ∃ pre post, mkRetryPrompt op bt e = pre ++ op ++ post := by
  refine ⟨"Prompt:\n",
    "\nCompletion:\n" ++ bt
      ++ "\nAbove, the Completion did not satisfy the constraints given in the Prompt. Details: "
      ++ e ++ "\nPlease try again, answering the Prompt completely:", ?_⟩
  simp [mkRetryPrompt, String.append_assoc]

theorem retryRepair_prompt_mem (p : PydanticOutputParser) (svc : CompletionService)
    (op : String) : ∀ (n : Nat) (bt : String) (f0 : ParseFailure) (q : String),
    q ∈ (retryRepair p svc op n bt f0).snd → ∃ pre post, q = pre ++ op ++ post
  | 0, bt, f0, q, hq => absurd hq (by simp [retryRepair])
  | Nat.succ k, bt, f0, q, hq => by
    rw [retryRepair] at hq
    simp only [] at hq
    cases hsvc : svc.complete (mkRetryPrompt op bt f0.message) with
    | error e =>
      rw [hsvc] at hq
      simp only [List.mem_singleton] at hq
      rw [hq]
      exact mkRetryPrompt_contains op bt f0.message
    | ok t2 =>
      rw [hsvc] at hq
      simp only [] at hq
      cases hp : p.parse t2 with
      | ok v =>
        rw [hp] at hq
        simp only [List.mem_singleton] at hq
        rw [hq]
        exact mkRetryPrompt_contains op bt f0.message
      | error f2 =>
        rw [hp] at hq
        simp only [List.mem_cons] at hq
        rcases hq with hq | hq
        · rw [hq]
          exact mkRetryPrompt_contains op bt f0.message
        · exact retryRepair_prompt_mem p svc op k t2 f2 q hq

instance (cs : List Char) : Decidable (IsBalancedSpan cs) := by
  unfold IsBalancedSpan
  infer_instance

/-- The mock reply used to keep every repair attempt failing. -/
def unfixableReply : String := "no structure here"

/-- Completion service that always replies with unparseable text. -/
def alwaysBadService : CompletionService := ⟨fun _ => Except.ok unfixableReply⟩

/-- Fixing parser with a retry budget of two over the always-bad service. -/
def fixTwoParser : OutputFixingParser := ⟨actionParser, alwaysBadService, 2⟩

/-- Unparseable raw input for the exhaustion run. -/
def budgetText : String := "also no structure"

/-- A schema-valid Actor record instance. -/
def actorFields : JsonFields :=
  JsonFields.cons ("name") (JsonValue.str ("Tom Hanks"))
    (JsonFields.cons ("film_names")
      (JsonValue.arr (JsonList.cons (JsonValue.str ("Forrest Gump")) JsonList.nil))
      JsonFields.nil)

/-- Prose before the first balanced span. -/
def spanPre : List Char := ("ab ").data

/-- A balanced-brace span containing a brace inside a string literal. -/
def spanMid : List Char := ("\x7b\"k\x7d\" : 1\x7d").data

/-- Trailing text containing a second candidate span. -/
def spanPost : List Char := (" and \x7b2\x7d").data

/-- The comma-list example input of the specification. -/
def exampleCommaText : String := "a, b ,c"

/-- Retry-with-context parser of the Action repair scenario. -/
def actionRetryParser : RetryWithErrorOutputParser :=
  RetryWithErrorOutputParser.from_llm actionParser actionFixService

/-- The original prompt supplied to the retry-with-context run. -/
def originalPromptText : String :=
  "Provide an Action and Action Input for the user question."

/-- The single repair request composed during the concrete retry run. -/
def firstRetryPrompt : String :=
  mkRetryPrompt originalPromptText actionBadText
    (ParseFailure.message ⟨ActionDescriptor.name, actionBadText,
      FailKind.validation ("action_input") ("field required")⟩)

/-- Raw text without any brace span. -/
def noSpanText : String := "hello there"

/-- C1: on input whose every parse attempt fails, with a service that
always answers, the fixing parser fails with RetryBudgetExhausted carrying
the last parse failure - the failure of re-parsing the reply to the final
logged repair prompt, or the initial failure when the budget is zero -
after invoking the completion service exactly maxAttempts times, not
more. -/
theorem fixing_parse_exhausts_budget (fx : OutputFixingParser) (text : String)
    (f0 : ParseFailure) (h0 : fx.parser.parse text = Except.error f0)
    (hsvc : ∀ pr, ∃ t f, fx.llm.complete pr = Except.ok t
      ∧ fx.parser.parse t = Except.error f) :
    ∃ last, fx.parse text = Except.error (FixError.budgetExhausted last)
      ∧ (fx.parseRun text).snd.length = fx.maxAttempts
      ∧ ((fx.maxAttempts = 0 ∧ last = f0) ∨
          ∃ ps pr t, (fx.parseRun text).snd = ps ++ [pr]
            ∧ fx.llm.complete pr = Except.ok t
            ∧ fx.parser.parse t = Except.error last) := by
  have hrun : fx.parseRun text = fixingRepair fx.parser fx.llm fx.maxAttempts f0 := by
    rw [OutputFixingParser.parseRun, h0]
  obtain ⟨last, h1, h2, h3⟩ := fixingRepair_exhausts fx.parser fx.llm hsvc fx.maxAttempts f0
  refine ⟨last, ?_, ?_, ?_⟩
  · rw [OutputFixingParser.parse, hrun]
    exact h1
  · rw [hrun]
    exact h2
  · rcases h3 with ⟨hk, hl⟩ | ⟨ps, pr, t, hsnd, hok, hfail⟩
    · exact Or.inl ⟨hk, hl⟩
    · refine Or.inr ⟨ps, pr, t, ?_, hok, hfail⟩
      rw [hrun]
      exact hsnd

/-- Witness for C1 at a concrete two-attempt run: the theorem applies, and
the wrapped payload is pinned to the failure of the final repair reply
(raw text unfixableReply), distinct from the initial failure on
budgetText. -/
theorem fixing_parse_exhausts_budget_witness :
    (∃ last, fixTwoParser.parse budgetText = Except.error (FixError.budgetExhausted last)
      ∧ (fixTwoParser.parseRun budgetText).snd.length = 2
      ∧ ((2 = 0 ∧ last = ⟨ActionDescriptor.name, budgetText, FailKind.extraction⟩) ∨
          ∃ ps pr t, (fixTwoParser.parseRun budgetText).snd = ps ++ [pr]
            ∧ fixTwoParser.llm.complete pr = Except.ok t
            ∧ fixTwoParser.parser.parse t = Except.error last))
    ∧ fixTwoParser.parse budgetText
        = Except.error (FixError.budgetExhausted
            ⟨ActionDescriptor.name, unfixableReply, FailKind.extraction⟩) :=
  ⟨fixing_parse_exhausts_budget fixTwoParser budgetText
      ⟨ActionDescriptor.name, budgetText, FailKind.extraction⟩ rfl
      (fun _ => ⟨unfixableReply,
        ⟨ActionDescriptor.name, unfixableReply, FailKind.extraction⟩, rfl, rfl⟩),
    rfl⟩

/-- C2: on input that already parses, the fixing parser returns that value
immediately and sends no prompt to the completion service. -/
theorem fixing_parse_zero_calls_on_success (fx : OutputFixingParser) (text : String)
    (v : JsonValue) (h : fx.parser.parse text = Except.ok v) :
    fx.parse text = Except.ok v ∧ (fx.parseRun text).snd = [] := by
  have hrun : fx.parseRun text = (Except.ok v, []) := by
    rw [OutputFixingParser.parseRun, h]
  exact ⟨by rw [OutputFixingParser.parse, hrun], by rw [hrun]⟩

/-- Witness for C2 at the well-formed Action completion. -/
theorem fixing_parse_zero_calls_on_success_witness :
    actionFixingParser.parse actionGoodText = Except.ok actionValue
      ∧ (actionFixingParser.parseRun actionGoodText).snd = [] :=
  fixing_parse_zero_calls_on_success actionFixingParser actionGoodText actionValue rfl

/-- C3: parse returns the descriptor-validated decoding of the extracted
span, and rendering a schema-valid record then parsing it yields a value
equal to the original record (round trip). -/
theorem parse_round_trip (d : Descriptor) (fs : JsonFields)
    (hval : validate d (JsonValue.obj fs) = Except.ok (JsonValue.obj fs)) :
    PydanticOutputParser.parse ⟨d⟩ (render (JsonValue.obj fs))
      = Except.ok (JsonValue.obj fs)
    ∧ ∀ (text spanStr : String) (v : JsonValue), extractSpan text = some spanStr →
        decodeJson spanStr = Except.ok v → validate d v = Except.ok v →
        PydanticOutputParser.parse ⟨d⟩ text = Except.ok v :=
  ⟨parse_render_obj d fs hval,
   fun text spanStr v hx hdec hv =>
     parse_of_extract_decode_validate d text spanStr v hx hdec hv⟩

/-- Witness for C3 at a concrete Actor instance with a list field. -/
theorem parse_round_trip_witness :
    PydanticOutputParser.parse ⟨ActorDescriptor⟩ (render (JsonValue.obj actorFields))
      = Except.ok (JsonValue.obj actorFields) :=
  (parse_round_trip ActorDescriptor actorFields rfl).1

/-- C4: JSON-like parsing is strict and classifies failures by stage: the
single-quoted input fails with a decode error, and a well-formed record
missing the required field b fails with a validation error naming b. -/
theorem strict_json_error_stages :
    (∃ m, PydanticOutputParser.parse ⟨RecBDescriptor⟩ singleQuotedText
        = Except.error ⟨RecBDescriptor.name, singleQuotedText, FailKind.decode m⟩)
    ∧ PydanticOutputParser.parse ⟨RecBDescriptor⟩ onlyFieldAText
        = Except.error ⟨RecBDescriptor.name, onlyFieldAText,
            FailKind.validation ("b") ("field required")⟩ :=
  ⟨⟨"Expecting value", rfl⟩, rfl⟩

/-- C5: extraction selects the first (leftmost, outermost) top-level
balanced-brace span, ignoring braces inside string literals, and that span
is what the parser then decodes and validates. -/
theorem extract_first_balanced_span (pre span post : List Char) (d : Descriptor)
    (hpre : lbrace ∉ pre) (hspan : IsBalancedSpan span) :
    extractSpanChars (pre ++ (span ++ post)) = some span
    ∧ PydanticOutputParser.parse ⟨d⟩ (String.mk (pre ++ (span ++ post)))
        = decodeAndValidate d (String.mk (pre ++ (span ++ post))) (String.mk span) := by
  have hx := extract_first_balanced_aux pre span post hpre hspan
  refine ⟨hx, ?_⟩
  rw [PydanticOutputParser.parse]
  have hxs : extractSpan (String.mk (pre ++ (span ++ post))) = some (String.mk span) := by
    rw [extractSpan,
      show (String.mk (pre ++ (span ++ post))).data = pre ++ (span ++ post) from rfl, hx]
    rfl
  rw [hxs]

/-- Witness for C5: prose, then a span holding a brace inside a string
literal, then a second candidate span; the first span is selected. -/
theorem extract_first_balanced_span_witness :
    extractSpanChars (spanPre ++ (spanMid ++ spanPost)) = some spanMid :=
  (extract_first_balanced_span spanPre spanMid spanPost ActionDescriptor
    (by decide) (by decide)).1

/-- C6: comma-delimiter parsing is total and permissive - the example input
splits into trimmed elements in input order, and in general the result is
an order-preserving selection of the trimmed split parts. -/
theorem comma_parse_permissive :
    CommaSeparatedListOutputParser.parse exampleCommaText = ["a", "b", "c"]
    ∧ ∀ text : String,
        List.Sublist (CommaSeparatedListOutputParser.parse text)
          ((splitComma text.data).map (fun l => String.mk (trimChars l))) := by
  constructor
  · rfl
  · intro text
    have h1 : List.Sublist
        (((splitComma text.data).map (fun l => String.mk (trimChars l))).dropWhile
          (fun x => x = ""))
        ((splitComma text.data).map (fun l => String.mk (trimChars l))) :=
      List.dropWhile_sublist _
    have h2 : List.Sublist
        (((((splitComma text.data).map (fun l => String.mk (trimChars l))).dropWhile
          (fun x => x = "")).reverse.dropWhile (fun x => x = "")))
        ((((splitComma text.data).map (fun l => String.mk (trimChars l))).dropWhile
          (fun x => x = "")).reverse) :=
      List.dropWhile_sublist _
    have h3 := List.reverse_sublist.mpr h2
    rw [List.reverse_reverse] at h3
    exact h3.trans h1

/-- C7: the Action scenario - the partial completion fails validation on
the missing action_input, and the fixing parser wrapping the same parser
succeeds with the repaired value after exactly one repair call. -/
theorem action_scenario_one_repair :
    actionParser.parse actionBadText
      = Except.error ⟨ActionDescriptor.name, actionBadText,
          FailKind.validation ("action_input") ("field required")⟩
    ∧ (actionFixingParser.parseRun actionBadText).fst = Except.ok actionValue
    ∧ (actionFixingParser.parseRun actionBadText).snd.length = 1 :=
  ⟨rfl, rfl, rfl⟩

/-- C8: every repair request the retry-with-context parser sends to the
completion service contains the original prompt text verbatim. -/
theorem retry_prompt_contains_original (rp : RetryWithErrorOutputParser)
    (text originalPrompt q : String)
    (hq : q ∈ (rp.parse_with_prompt_run text originalPrompt).snd) :
    ∃ pre post, q = pre ++ originalPrompt ++ post := by
  rw [RetryWithErrorOutputParser.parse_with_prompt_run] at hq
  cases hp : rp.parser.parse text with
  | ok v =>
    rw [hp] at hq
    simp at hq
  | error f =>
    rw [hp] at hq
    exact retryRepair_prompt_mem rp.parser rp.llm originalPrompt rp.maxAttempts text f q hq

/-- Witness for C8 at the concrete retry run's single composed prompt. -/
theorem retry_prompt_contains_original_witness :
    ∃ pre post, firstRetryPrompt = pre ++ originalPromptText ++ post :=
  retry_prompt_contains_original actionRetryParser actionBadText originalPromptText
    firstRetryPrompt (by decide)

/-- C9: when no span can be located the parser fails with the extraction
error, and every failure it can produce is one of the three categorized
kinds - extraction, decode, or validation - whatever caller-supplied
field predicates the descriptor holds. -/
theorem parse_failures_categorized (d : Descriptor) (text : String) :
    (extractSpan text = none →
      PydanticOutputParser.parse ⟨d⟩ text
        = Except.error ⟨d.name, text, FailKind.extraction⟩)
    ∧ ∀ f, PydanticOutputParser.parse ⟨d⟩ text = Except.error f →
        f.kind = FailKind.extraction ∨ (∃ m, f.kind = FailKind.decode m)
          ∨ ∃ fl m, f.kind = FailKind.validation fl m := by
  constructor
  · intro hx
    rw [PydanticOutputParser.parse, hx]
  · intro f _
    cases hk : f.kind with
    | extraction => exact Or.inl rfl
    | decode m => exact Or.inr (Or.inl ⟨m, rfl⟩)
    | validation fl m => exact Or.inr (Or.inr ⟨fl, m, rfl⟩)

/-- Witness for C9 at spanless raw text. -/
theorem parse_failures_categorized_witness :
    PydanticOutputParser.parse ⟨ActionDescriptor⟩ noSpanText
      = Except.error ⟨ActionDescriptor.name, noSpanText, FailKind.extraction⟩ :=
  (parse_failures_categorized ActionDescriptor noSpanText).1 rfl

/-- Every failing parse reports the schema name and the original raw text. -/
theorem parse_error_fields (p : PydanticOutputParser) (text : String) (f : ParseFailure)
    (h : PydanticOutputParser.parse p text = Except.error f) :
    f.schemaName = p.descriptor.name ∧ f.rawText = text := by
  rw [PydanticOutputParser.parse] at h
  cases hx : extractSpan text with
  | none =>
    rw [hx] at h
    simp only [] at h
    rw [Except.error.injEq] at h
    rw [← h]
    exact ⟨rfl, rfl⟩
  | some s =>
    rw [hx] at h
    simp only [] at h
    rw [decodeAndValidate.eq_def] at h
    cases hd : decodeJson s with
    | error m =>
      rw [hd] at h
      simp only [] at h
      rw [Except.error.injEq] at h
      rw [← h]
      exact ⟨rfl, rfl⟩
    | ok v =>
      rw [hd] at h
      simp only [] at h
      cases hv : validate p.descriptor v with
      | error e =>
        rw [hv] at h
        simp only [] at h
        rw [Except.error.injEq] at h
        rw [← h]
        exact ⟨rfl, rfl⟩
      | ok v2 =>
        rw [hv] at h
        simp at h

/-- C10: every failure of the JSON-like parse carries the schema name, the
complete original completion text verbatim, and the underlying cause,
composed into the displayed message format the notebook shows. -/
theorem failure_message_composition (p : PydanticOutputParser) (text : String)
    (f : ParseFailure) (h : PydanticOutputParser.parse p text = Except.error f) :
    f.schemaName = p.descriptor.name ∧ f.rawText = text
    ∧ f.message = "Failed to parse " ++ p.descriptor.name ++ " from completion "
        ++ text ++ ". Got: " ++ FailKind.describe f.kind
    ∧ ∃ pre post, f.message = pre ++ text ++ post := by
  obtain ⟨h1, h2⟩ := parse_error_fields p text f h
  refine ⟨h1, h2, ?_, ?_⟩
  · rw [ParseFailure.message, h1, h2]
  · refine ⟨"Failed to parse " ++ p.descriptor.name ++ " from completion ",
      ". Got: " ++ FailKind.describe f.kind, ?_⟩
    rw [ParseFailure.message, h1, h2]
    simp [String.append_assoc]

/-- Witness for C10 at the concrete Action validation failure. -/
theorem failure_message_composition_witness :
    (⟨ActionDescriptor.name, actionBadText,
        FailKind.validation ("action_input") ("field required")⟩ : ParseFailure).message
      = "Failed to parse " ++ ActionDescriptor.name ++ " from completion "
        ++ actionBadText ++ ". Got: "
        ++ FailKind.describe (FailKind.validation ("action_input") ("field required")) :=
  (failure_message_composition actionParser actionBadText
    ⟨ActionDescriptor.name, actionBadText,
      FailKind.validation ("action_input") ("field required")⟩ rfl).2.2.1
